import Mathlib

/-!
Verification development for the Shotcraft case-based inventory
reconciliation core (`compute_results` in `src/app.py` and the helpers it
relies on).  The pandas data frames are embedded as Lean lists of records;
floating-point cell values are embedded as rationals, with `Option ℚ`
marking cells that `pd.to_numeric(errors="coerce")` turns into NaN
(non-numeric strings, missing values) and a separate `Cell`/`ENum` model
covering the infinite values that `to_numeric` lets through unchanged.
-/

namespace Shotcraft

/-- Classification of one raw spreadsheet cell by how
`pd.to_numeric(value, errors="coerce")` (src/app.py lines 58-59) treats it:
a finite numeric value, a positive or negative infinity (either a float
infinity or a string parsing to one), or anything coerced to NaN
(non-numeric strings, missing values, literal NaN). -/
inductive Cell where
  | num (q : ℚ)
  | posInf
  | negInf
  | nan
deriving DecidableEq

/-- Result of numeric normalization: an extended number.  `fin q` is a
finite float value (embedded as a rational), `pinf`/`ninf` are the two
infinities, which `fillna` does not replace. -/
inductive ENum where
  | fin (q : ℚ)
  | pinf
  | ninf
deriving DecidableEq

/-- Embedding of `pd.to_numeric(x, errors="coerce").fillna(0.0)`
(src/app.py lines 58-59): values coerced to NaN become `0.0`; finite
numbers (including negative ones) and infinities pass through unchanged. -/
def toNumericFillna : Cell → ENum
  | .num q => .fin q
  | .posInf => .pinf
  | .negInf => .ninf
  | .nan => .fin 0

/-- One row of the formula table produced by `load_components_and_onhand`:
columns `Component`, `Per_Case`, `UOM`.  The `Per_Case` cell is
`Option ℚ`: `none` models any value that `pd.to_numeric(errors="coerce")`
coerces to NaN. -/
structure FormulaRow where
  component : String
  perCase : Option ℚ
  uom : String
deriving DecidableEq

/-- One row of the optional stock table: columns `Component`, `On_Hand`,
with the same `Option ℚ` cell convention. -/
structure StockRow where
  component : String
  onHand : Option ℚ
deriving DecidableEq

/-- One row of the merged frame before numeric normalization
(after `df.merge(onhand_df, on="Component", how="left")` or after the
`df["On_Hand"] = 0.0` default column). `onHand = none` is the NaN a left
merge puts in unmatched rows. -/
structure Row0 where
  component : String
  uom : String
  perCase : Option ℚ
  onHand : Option ℚ
deriving DecidableEq

/-- One row after both numeric columns have been normalized. -/
structure MRow where
  component : String
  uom : String
  perCase : ℚ
  onHand : ℚ
deriving DecidableEq

/-- One fully derived result row: the merged columns plus `Required` and
`Remaining`. -/
structure RRow where
  component : String
  uom : String
  perCase : ℚ
  onHand : ℚ
  required : ℚ
  remaining : ℚ
deriving DecidableEq

/-- The join predicate of `df.merge(onhand_df, on="Component", how="left")`:
pandas matches key cells by plain equality of the strings, with no
case-folding or whitespace trimming. -/
def joinMatch (a b : String) : Bool :=
  a = b

/-- Embedding of the left merge on `Component` (src/app.py line 54): every
formula row produces one output row per matching stock row, in stock-table
order, or a single row with a NaN `On_Hand` when no stock row matches.
Stock rows whose component matches no formula row are dropped. -/
def mergeLeft : List FormulaRow → List StockRow → List Row0
  | [], _ => []
  | fr :: t, s =>
      (let ms := s.filter fun sr => joinMatch sr.component fr.component
       if ms.isEmpty then [⟨fr.component, fr.uom, fr.perCase, none⟩]
       else ms.map fun sr => ⟨fr.component, fr.uom, fr.perCase, sr.onHand⟩)
      ++ mergeLeft t s

/-- The merged frame as `compute_results` builds it (src/app.py lines
52-56): a left merge when a stock table is present, otherwise the formula
rows with a constant `On_Hand = 0.0` column. -/
def mergedRows (f : List FormulaRow) (so : Option (List StockRow)) : List Row0 :=
  match so with
  | some s => mergeLeft f s
  | none => f.map fun fr => ⟨fr.component, fr.uom, fr.perCase, some 0⟩

/-- Embedding of `pd.to_numeric(col, errors="coerce").fillna(0.0)` on the
finite fragment: a NaN cell becomes `0.0`, a finite number is unchanged.
(`toNumericFillna` covers the infinite inputs; pipeline claims are stated
over finite data.) -/
def fillna0 : Option ℚ → ℚ
  | none => 0
  | some q => q

/-- Normalization of both numeric columns of the merged frame
(src/app.py lines 58-59). -/
def normRows (rows : List Row0) : List MRow :=
  rows.map fun r => ⟨r.component, r.uom, fillna0 r.perCase, fillna0 r.onHand⟩

/-- Embedding of the metric derivation (src/app.py lines 61-62):
`Required = Per_Case * float(cases_sold)`, `Remaining = On_Hand - Required`,
one output row per input row. -/
def deriveMetrics (cases : ℚ) (rows : List MRow) : List RRow :=
  rows.map fun r =>
    ⟨r.component, r.uom, r.perCase, r.onHand,
      r.perCase * cases, r.onHand - r.perCase * cases⟩

/-- The per-row feasibility quotient `On_Hand / Per_Case`. -/
def ratioOf (r : RRow) : ℚ :=
  r.onHand / r.perCase

/-- Embedding of the `MaxCasesByItem` column (src/app.py line 66):
`On_Hand / Per_Case` for a row with `Per_Case > 0`, and `float("inf")`
(embedded as `none`) otherwise. -/
def maxCasesByItem (r : RRow) : Option ℚ :=
  if 0 < r.perCase then some (ratioOf r) else none

/-- Minimum of two extended values where `none` stands for
`float("inf")`. -/
def omin : Option ℚ → Option ℚ → Option ℚ
  | none, m => m
  | some q, none => some q
  | some q, some m => some (min q m)

/-- Minimum of a list of extended values where `none` stands for
`float("inf")`: the result is `none` exactly when every entry is infinite.
This embeds `df["MaxCasesByItem"].min()`. -/
def listMinInf : List (Option ℚ) → Option ℚ
  | [] => none
  | x :: xs => omin x (listMinInf xs)

/-- Embedding of the feasibility computation (src/app.py lines 64-69):
if no row has `Per_Case > 0` the result is `0`, otherwise the floor of the
minimum `MaxCasesByItem`.  The `none` fallback arm is unreachable when the
candidate set is nonempty (a candidate row contributes a finite quotient);
in Python that arm would be `math.floor(float("inf"))` raising
`OverflowError`. -/
def max_sellable (rows : List RRow) : ℤ :=
  let candidates := rows.filter fun r => decide (0 < r.perCase)
  if candidates.isEmpty then 0
  else
    match listMinInf (rows.map maxCasesByItem) with
    | some q => ⌊q⌋
    | none => 0

/-- Embedding of the shortage filter (src/app.py line 71): the rows with
strictly negative `Remaining`, in frame order. -/
def shortagesOf (rows : List RRow) : List RRow :=
  rows.filter fun r => decide (r.remaining < 0)

/-- Strict lexicographic comparison of character lists by code point: the
order Python uses to compare strings (`a < b` in `sort_values`).  A strict
prefix is smaller than the longer string. -/
def lexLtCh : List Char → List Char → Bool
  | _, [] => false
  | [], _ :: _ => true
  | a :: as, b :: bs => decide (a < b) || (decide (a = b) && lexLtCh as bs)

/-- Python's strict `<` on strings: code-point lexicographic order. -/
def pyLt (a b : String) : Prop :=
  lexLtCh a.data b.data = true

/-- Python's `<=` on strings, the non-strict companion of `pyLt`. -/
def pyLe (a b : String) : Prop :=
  lexLtCh b.data a.data = false

instance : DecidableRel pyLt := fun a b =>
  inferInstanceAs (Decidable (lexLtCh a.data b.data = true))

instance : DecidableRel pyLe := fun a b =>
  inferInstanceAs (Decidable (lexLtCh b.data a.data = false))

/-- The comparison used for the final presentation sort: ascending plain
(code-point, case-sensitive) string order on `Component`, as
`df.sort_values("Component")` compares Python strings. -/
def rleC (a b : RRow) : Prop :=
  pyLe a.component b.component

instance : DecidableRel rleC := fun a b =>
  inferInstanceAs (Decidable (pyLe a.component b.component))

/-- Embedding of `df.sort_values("Component")` (src/app.py line 72): the
rows reordered ascending by `Component`.  The source's quicksort and this
insertion sort agree on every sorted-value property; only the relative
order of rows with equal components is implementation-defined. -/
def displaySort (rows : List RRow) : List RRow :=
  List.insertionSort rleC rows

/-- The triple `compute_results` returns (src/app.py line 73). -/
structure Results where
  display : List RRow
  maxSellable : ℤ
  shortages : List RRow
deriving DecidableEq

/-- Embedding of `compute_results(components, onhand_df, cases_sold)`
(src/app.py lines 51-73) on finite numeric data. -/
def compute_results (f : List FormulaRow) (so : Option (List StockRow))
    (cases : ℚ) : Results :=
  let rows := deriveMetrics cases (normRows (mergedRows f so))
  ⟨displaySort rows, max_sellable rows, shortagesOf rows⟩

/-- Modelled from the spec: ASCII lowercasing of a material identity
string, the "lowercased" half of the spec's normalization rule (§3). -/
def lowerStr (s : String) : String :=
  ⟨s.data.map Char.toLower⟩

/-- Modelled from the spec: whitespace trimming of a material identity
string, the "trimmed" half of the spec's normalization rule (§3). -/
def trimStr (s : String) : String :=
  ⟨((s.data.dropWhile Char.isWhitespace).reverse.dropWhile
      Char.isWhitespace).reverse⟩

/-- Modelled from the spec: the normalized material-identity equality the
spec requires for joining — equal after lowercasing and trimming (§3). -/
def normIdEq (a b : String) : Bool :=
  lowerStr (trimStr a) = lowerStr (trimStr b)

/-- Modelled from the spec: case-insensitive ascending comparison of
result rows, the ordering §4.3 states for the output. -/
def ciLe (a b : RRow) : Prop :=
  pyLe (lowerStr a.component) (lowerStr b.component)

instance : DecidableRel ciLe := fun a b =>
  inferInstanceAs (Decidable (pyLe (lowerStr a.component) (lowerStr b.component)))

/-- Modelled from the spec (§4.4): one step of selecting the minimum-ratio
row, ties broken by ascending material identity. -/
def pickStep (acc : Option RRow) (r : RRow) : Option RRow :=
  match acc with
  | none => some r
  | some b =>
      if ratioOf r < ratioOf b ∨
          (ratioOf r = ratioOf b ∧ pyLt r.component b.component) then
        some r
      else some b

/-- Modelled from the spec (§4.4): the minimum-ratio row among rows with
`perUnit > 0`, ties broken by ascending material identity.  The source
computes no such row; this definition exists to compare the spec's
feasibility result against the code's. -/
def specPick (rows : List RRow) : Option RRow :=
  (rows.filter fun r => decide (0 < r.perCase)).foldl pickStep none

/-- Modelled from the spec (§4.4): the full feasibility result
`(maxFulfillable, constrainingMaterial)` the spec describes. -/
def feasibilitySpec (rows : List RRow) : ℤ × Option String :=
  match specPick rows with
  | none => (0, none)
  | some b => (⌊ratioOf b⌋, some b.component)

/-! The store model of `compute_results`, used to state that the function
never mutates its two data-frame arguments.  Each pandas frame lives at a
numeric id in a heap; `copy`, `merge`, `filter`/`copy` and `sort_values`
allocate fresh ids, while column assignments (`df[...] = ...`) write in
place to the frame they are applied to. -/

/-- One heap cell: a pandas frame at some stage of the pipeline. -/
inductive Frame where
  | formulaF (rows : List FormulaRow)
  | stockF (rows : List StockRow)
  | rawF (rows : List Row0)
  | normF (rows : List MRow)
  | resultF (rows : List RRow)
deriving DecidableEq

/-- The heap of allocated frames: an allocation counter and the memory
(ids at or above `nextId` are unallocated). -/
structure PState where
  nextId : ℕ
  mem : ℕ → Option Frame

/-- Allocate a fresh frame, returning the new state and the fresh id. -/
def allocF (st : PState) (fr : Frame) : PState × ℕ :=
  (⟨st.nextId + 1, Function.update st.mem st.nextId (some fr)⟩, st.nextId)

/-- Overwrite the frame at an existing id (an in-place column
assignment). -/
def writeF (st : PState) (i : ℕ) (fr : Frame) : PState :=
  ⟨st.nextId, Function.update st.mem i (some fr)⟩

/-- The straight-line tail of `compute_results` once the merged frame
lives at id `d`: the two `pd.to_numeric` column assignments (modelled as
one in-place write of the normalized frame), the `Required`/`Remaining`
column assignments (a write of the derived frame, which also stands for
the `MaxCasesByItem` column assignment), then the `shortages` copy and
the sorted `display` frame, which are fresh allocations.  Returns the
final state, the display id, `max_sellable` and the shortages id. -/
def computeTailSt (st : PState) (d : ℕ) (f : List FormulaRow)
    (so : Option (List StockRow)) (cases : ℚ) : PState × ℕ × ℤ × ℕ :=
  let rows := deriveMetrics cases (normRows (mergedRows f so))
  let st3 := writeF st d (.normF (normRows (mergedRows f so)))
  let st4 := writeF st3 d (.resultF rows)
  let a3 := allocF st4 (.resultF (shortagesOf rows))
  let a4 := allocF a3.1 (.resultF (displaySort rows))
  (a4.1, a4.2, max_sellable rows, a3.2)

/-- Read the optional stock-table argument: `none` for "no stock table
passed", otherwise the stock rows stored at the given id (or a failure
when the id does not hold a stock frame). -/
def readStock (st : PState) : Option ℕ → Option (Option (List StockRow))
  | none => some none
  | some j =>
      match st.mem j with
      | some (.stockF s) => some (some s)
      | _ => none

/-- Store-level embedding of `compute_results(components, onhand_df,
cases_sold)` (src/app.py lines 51-73): read the two argument frames, make
the defensive copy (`df = components.copy()`), either rebind `df` to the
fresh frame `df.merge(onhand_df, ...)` returns or write the default
`On_Hand` column into the copy, then run the in-place tail.  `none` when
an argument id does not hold a frame of the expected kind. -/
def computeResultsSt (st : PState) (ci : ℕ) (oi : Option ℕ) (cases : ℚ) :
    Option (PState × ℕ × ℤ × ℕ) :=
  match st.mem ci, readStock st oi with
  | some (.formulaF f), some none =>
      some (computeTailSt
        (writeF (allocF st (.formulaF f)).1 (allocF st (.formulaF f)).2
          (.rawF (mergedRows f none)))
        (allocF st (.formulaF f)).2 f none cases)
  | some (.formulaF f), some (some s) =>
      some (computeTailSt
        (allocF (allocF st (.formulaF f)).1 (.rawF (mergedRows f (some s)))).1
        (allocF (allocF st (.formulaF f)).1 (.rawF (mergedRows f (some s)))).2
        f (some s) cases)
  | _, _ => none

/-- The heap after a call to `compute_results` (unchanged when the call
rejects its arguments). -/
def finalState (st : PState) (ci : ℕ) (oi : Option ℕ) (cases : ℚ) : PState :=
  match computeResultsSt st ci oi cases with
  | some r => r.1
  | none => st

theorem lexLtCh_irrefl : ∀ l : List Char, lexLtCh l l = false
  | [] => rfl
  | a :: as => by simp [lexLtCh, lexLtCh_irrefl as, lt_irrefl]

theorem lexLtCh_trans : ∀ {a b c : List Char},
    lexLtCh a b = true → lexLtCh b c = true → lexLtCh a c = true
  | _, [], _, h1, _ => by simp [lexLtCh] at h1
  | _, _ :: _, [], _, h2 => by simp [lexLtCh] at h2
  | [], _ :: _, _ :: _, _, _ => rfl
  | a :: as, b :: bs, c :: cs, h1, h2 => by
      simp only [lexLtCh, Bool.or_eq_true, Bool.and_eq_true, decide_eq_true_eq] at h1 h2 ⊢
      rcases h1 with h1 | ⟨rfl, h1⟩
      · rcases h2 with h2 | ⟨rfl, _⟩
        · exact Or.inl (lt_trans h1 h2)
        · exact Or.inl h1
      · rcases h2 with h2 | ⟨rfl, h2⟩
        · exact Or.inl h2
        · exact Or.inr ⟨rfl, lexLtCh_trans h1 h2⟩

theorem lexLtCh_asymm {a b : List Char} (h : lexLtCh a b = true) :
    lexLtCh b a = false := by
  by_contra hc
  have hba : lexLtCh b a = true := by
    cases hx : lexLtCh b a
    · exact absurd hx hc
    · rfl
  have := lexLtCh_trans h hba
  rw [lexLtCh_irrefl] at this
  exact Bool.false_ne_true this

theorem lexLtCh_eq_of_not_lt : ∀ {a b : List Char},
    lexLtCh a b = false → lexLtCh b a = false → a = b
  | [], [], _, _ => rfl
  | [], _ :: _, h1, _ => by simp [lexLtCh] at h1
  | _ :: _, [], _, h2 => by simp [lexLtCh] at h2
  | a :: as, b :: bs, h1, h2 => by
      simp only [lexLtCh, Bool.or_eq_false_iff, Bool.and_eq_false_iff,
        decide_eq_false_iff_not] at h1 h2
      have hab : a = b := by
        rcases lt_trichotomy a b with h | h | h
        · exact absurd h h1.1
        · exact h
        · exact absurd h h2.1
      subst hab
      rcases h1.2 with h | h
      · exact absurd rfl h
      · rcases h2.2 with h2b | h2b
        · exact absurd rfl h2b
        · rw [lexLtCh_eq_of_not_lt h h2b]

instance : IsTrans RRow rleC := by
  constructor
  intro a b c h1 h2
  unfold rleC pyLe at h1 h2 ⊢
  by_contra hc
  have hzx : lexLtCh c.component.data a.component.data = true := by
    cases hx : lexLtCh c.component.data a.component.data
    · exact absurd hx hc
    · rfl
  cases hyz : lexLtCh b.component.data c.component.data
  · have := lexLtCh_eq_of_not_lt h2 hyz
    rw [this] at hzx
    exact Bool.false_ne_true (h1 ▸ hzx)
  · have := lexLtCh_trans hyz hzx
    exact Bool.false_ne_true (h1 ▸ this)

instance : IsTotal RRow rleC := by
  constructor
  intro a b
  unfold rleC pyLe
  cases h : lexLtCh b.component.data a.component.data
  · exact Or.inl rfl
  · exact Or.inr (lexLtCh_asymm h)

/-- Claim C1 (counterexample): with one formula entry for material `a` and
two stock entries for the same material, the merge yields two rows, not
`|F| = 1`, and both stock values survive — the last-seen one does not win. -/
theorem C1_counterexample :
    (mergeLeft [⟨"a", some 1, "ea"⟩] [⟨"a", some 5⟩, ⟨"a", some 7⟩]).length = 2 ∧
    ([⟨"a", some 1, "ea"⟩] : List FormulaRow).length = 1 ∧
    (mergeLeft [⟨"a", some 1, "ea"⟩]
        [⟨"a", some 5⟩, ⟨"a", some 7⟩]).map (fun r => r.onHand) =
      [some 5, some 7] := by
  decide

/-- Claim C1 (amended): the merge produces one row per formula entry and
matching stock entry; it has exactly `|F|` rows provided every formula
material matches at most one stock row (duplicate matching stock
identities each produce their own output row instead of overwriting). -/
theorem C1_merge_length (f : List FormulaRow) (s : List StockRow)
    (h : ∀ fr ∈ f,
      (s.filter fun sr => joinMatch sr.component fr.component).length ≤ 1) :
    (mergeLeft f s).length = f.length := by
  induction f with
  | nil => rfl
  | cons fr t ih =>
      have hfr := h fr (List.mem_cons_self fr t)
      have ht : ∀ x ∈ t,
          (s.filter fun sr => joinMatch sr.component x.component).length ≤ 1 :=
        fun x hx => h x (List.mem_cons_of_mem fr hx)
      simp only [mergeLeft, List.length_append, ih ht, List.length_cons]
      cases hms : (s.filter fun sr => joinMatch sr.component fr.component).isEmpty
      · have hne : (s.filter fun sr => joinMatch sr.component fr.component) ≠ [] := by
          intro hx
          rw [hx] at hms
          simp at hms
        have hpos : 0 < (s.filter fun sr => joinMatch sr.component fr.component).length :=
          List.length_pos.mpr hne
        have h1 : (s.filter fun sr => joinMatch sr.component fr.component).length = 1 :=
          le_antisymm hfr hpos
        simp only [hms, Bool.false_eq_true, if_false, List.length_map, h1]
        omega
      · simp only [hms, if_true, List.length_singleton]
        omega

/-- Claim C1 (witness for the amended theorem): a concrete formula/stock
pair where every material matches at most one stock entry. -/
theorem C1_merge_length_witness :
    (mergeLeft [⟨"a", some 1, "ea"⟩, ⟨"b", some 2, "kg"⟩]
        [⟨"b", some 4⟩]).length =
      ([⟨"a", some 1, "ea"⟩, ⟨"b", some 2, "kg"⟩] : List FormulaRow).length :=
  C1_merge_length _ _ (by decide)

/-- Claim C2: for a non-negative order quantity, metric derivation keeps
one row per input row, and every output row satisfies
`required = perUnit * orderQty` and `remaining = onHand - required`. -/
theorem C2_metrics (rows : List MRow) (cases : ℚ) (h : 0 ≤ cases) :
    (deriveMetrics cases rows).length = rows.length ∧
    ∀ r ∈ deriveMetrics cases rows,
      r.required = r.perCase * cases ∧ r.remaining = r.onHand - r.required := by
  refine ⟨by simp [deriveMetrics], ?_⟩
  intro r hr
  simp only [deriveMetrics, List.mem_map] at hr
  obtain ⟨a, _, rfl⟩ := hr
  exact ⟨rfl, rfl⟩

/-- Claim C2 (witness): the metric equations at a concrete row and order
quantity. -/
theorem C2_metrics_witness :
    (deriveMetrics 2 [⟨"x", "ea", 3, 4⟩]).length =
        ([⟨"x", "ea", 3, 4⟩] : List MRow).length ∧
    ∀ r ∈ deriveMetrics 2 [⟨"x", "ea", 3, 4⟩],
      r.required = r.perCase * 2 ∧ r.remaining = r.onHand - r.required :=
  C2_metrics _ 2 (by decide)

/-- Claim C3 (counterexample): a negative numeric input is not replaced by
`0.0` — normalization returns `-5`, which is not a non-negative value —
and a positive infinity passes through as an infinity rather than being
replaced by `0.0`. -/
theorem C3_counterexample :
    (¬ ∃ q : ℚ, toNumericFillna (Cell.num (-5)) = ENum.fin q ∧ 0 ≤ q) ∧
    toNumericFillna Cell.posInf = ENum.pinf := by
  constructor
  · rintro ⟨q, hq, h0⟩
    have hq5 : q = -5 := by
      cases hq
      rfl
    rw [hq5] at h0
    have : ¬ (0:ℚ) ≤ -5 := by with_unfolding_all decide
    exact this h0
  · rfl

/-- Claim C3 (amended): numeric normalization is total (it never raises),
maps exactly the NaN-class inputs (non-numeric, missing, literal NaN) and
the number `0` to `0.0`, leaves every finite numeric value — including
negative ones — unchanged, and passes the two infinities through. -/
theorem C3_amended :
    (∀ q : ℚ, toNumericFillna (Cell.num q) = ENum.fin q) ∧
    (∀ c, toNumericFillna c = ENum.fin 0 ↔ c = Cell.nan ∨ c = Cell.num 0) ∧
    (∀ c, toNumericFillna c = ENum.pinf ↔ c = Cell.posInf) ∧
    (∀ c, toNumericFillna c = ENum.ninf ↔ c = Cell.negInf) := by
  refine ⟨fun q => rfl, fun c => ?_, fun c => ?_, fun c => ?_⟩ <;>
    cases c <;> simp [toNumericFillna]

/-- Claim C6: a formula material with no matching stock entry — including
when the stock table is absent — is never dropped: the normalized merged
frame holds exactly the formula's rows for that material, each with
`onHand = 0`. -/
theorem C6_zero_stock_default (f : List FormulaRow) (so : Option (List StockRow))
    (c : String)
    (h : ∀ s, so = some s → ∀ sr ∈ s, sr.component ≠ c) :
    (normRows (mergedRows f so)).filter (fun r => decide (r.component = c)) =
      (f.filter fun fr => decide (fr.component = c)).map
        (fun fr => ⟨fr.component, fr.uom, fillna0 fr.perCase, 0⟩) := by
  induction f with
  | nil => cases so <;> rfl
  | cons fr t ih =>
      cases so with
      | none =>
          simp only [mergedRows, List.map_cons, normRows, List.filter_cons] at ih ⊢
          cases hc : decide (fr.component = c)
          · simpa [hc] using ih
          · simpa [hc, fillna0] using ih
      | some s =>
          simp only [mergedRows] at ih ⊢
          rw [mergeLeft]
          cases hc : decide (fr.component = c)
          · have hcomp :
                ∀ x ∈ (if (s.filter fun sr =>
                      joinMatch sr.component fr.component).isEmpty then
                    [(⟨fr.component, fr.uom, fr.perCase, none⟩ : Row0)]
                  else (s.filter fun sr =>
                      joinMatch sr.component fr.component).map fun sr =>
                    ⟨fr.component, fr.uom, fr.perCase, sr.onHand⟩),
                  x.component = fr.component := by
              intro x hx
              cases hms : (s.filter fun sr =>
                  joinMatch sr.component fr.component).isEmpty <;>
                simp [hms] at hx
              · obtain ⟨sr, _, rfl⟩ := hx
                rfl
              · rw [hx]
            simp only [normRows, List.map_append, List.filter_append]
            have hnil :
                ((if (s.filter fun sr =>
                      joinMatch sr.component fr.component).isEmpty then
                    [(⟨fr.component, fr.uom, fr.perCase, none⟩ : Row0)]
                  else (s.filter fun sr =>
                      joinMatch sr.component fr.component).map fun sr =>
                    ⟨fr.component, fr.uom, fr.perCase, sr.onHand⟩).map fun r =>
                    (⟨r.component, r.uom, fillna0 r.perCase, fillna0 r.onHand⟩ : MRow)).filter
                  (fun r => decide (r.component = c)) = [] := by
              rw [List.filter_eq_nil_iff]
              intro r hr
              simp only [List.mem_map] at hr
              obtain ⟨x, hx, rfl⟩ := hr
              simpa [hcomp x hx] using hc
            rw [hnil, List.nil_append, List.filter_cons, hc]
            exact ih
          · have hceq : fr.component = c := of_decide_eq_true hc
            have hms : (s.filter fun sr =>
                joinMatch sr.component fr.component) = [] := by
              rw [List.filter_eq_nil_iff]
              intro sr hsr
              have := h s rfl sr hsr
              simp [joinMatch, hceq, this]
            rw [hms]
            simp only [List.isEmpty_nil, if_true, normRows, List.map_append,
              List.filter_append, List.map_cons, List.map_nil, List.filter_cons, hc,
              List.filter_cons]
            simpa [fillna0] using ih

/-- Claim C6 (witness): a formula entry with no stock match gets
`onHand = 0` and is kept, both with a stock table lacking its material
and with no stock table at all. -/
theorem C6_zero_stock_default_witness :
    (normRows (mergedRows [⟨"Cap", some 1, "ea"⟩]
        (some [⟨"Bottle", some 2⟩]))).filter
        (fun r => decide (r.component = "Cap")) =
      (([⟨"Cap", some 1, "ea"⟩] : List FormulaRow).filter
          fun fr => decide (fr.component = "Cap")).map
        (fun fr => ⟨fr.component, fr.uom, fillna0 fr.perCase, 0⟩) :=
  C6_zero_stock_default _ _ _ (by decide)

/-- Claim C7 (counterexample): the merge joins on plain string equality —
`"Bottle"` and `"bottle"` are equal after the spec's lowercase/trim
normalization, yet the code treats them as distinct and leaves the
formula row at the zero-stock default instead of the stock value `7`. -/
theorem C7_counterexample :
    joinMatch "Bottle" "bottle" = false ∧
    normIdEq "Bottle" "bottle" = true ∧
    normRows (mergeLeft [⟨"Bottle", some 1, "ea"⟩] [⟨"bottle", some 7⟩]) =
      [⟨"Bottle", "ea", 1, 0⟩] := by
  refine ⟨by decide, by decide, by decide⟩

/-- Claim C7 (amended): two material strings match in the join exactly
when they are equal as raw strings — no lowercasing, no trimming — and a
one-row merge keeps the stock value exactly under that condition. -/
theorem C7_exact_match (a b : String) (fr : FormulaRow) (sr : StockRow) :
    (joinMatch a b = true ↔ a = b) ∧
    mergeLeft [fr] [sr] =
      [⟨fr.component, fr.uom, fr.perCase,
        if joinMatch sr.component fr.component then sr.onHand else none⟩] := by
  constructor
  · simp [joinMatch]
  · cases hj : joinMatch sr.component fr.component <;>
      simp [mergeLeft, List.filter, hj]

/-- Claim C8: the shortage detector returns exactly the rows whose
`Remaining` is strictly negative — a row with `remaining = 0` is never in
the output, any row with negative remaining always is — and it is a
sublist (pure filter) of its input. -/
theorem C8_shortage_boundary (rows : List RRow) (r : RRow) :
    (r ∈ shortagesOf rows ↔ r ∈ rows ∧ r.remaining < 0) ∧
    (shortagesOf rows).Sublist rows := by
  constructor
  · simp [shortagesOf, List.mem_filter]
  · exact List.filter_sublist _

theorem listMinInf_map_filter (rows : List RRow) :
    listMinInf (rows.map maxCasesByItem) =
      listMinInf ((rows.filter fun r => decide (0 < r.perCase)).map maxCasesByItem) := by
  induction rows with
  | nil => rfl
  | cons r t ih =>
      cases hd : decide (0 < r.perCase) with
      | true =>
          rw [List.filter_cons]
          simp only [hd, if_true, List.map_cons, listMinInf, ih]
      | false =>
          have hneg : ¬ 0 < r.perCase := of_decide_eq_false hd
          rw [List.filter_cons]
          simp only [hd, Bool.false_eq_true, if_false, List.map_cons, listMinInf, ih]
          simp [maxCasesByItem, hneg, omin]

theorem listMinInf_cons_some (xs : List (Option ℚ)) (b : ℚ) :
    listMinInf (some b :: xs) =
      match listMinInf xs with
      | none => some b
      | some m => some (min b m) := by
  rw [listMinInf]
  cases listMinInf xs <;> rfl

theorem listMinInf_singleton (b : ℚ) : listMinInf [some b] = some b := rfl

theorem foldl_min_pull : ∀ (M : List ℚ) (b r0 : ℚ),
    M.foldl min (min b r0) = min b (M.foldl min r0)
  | [], _, _ => rfl
  | m :: t, b, r0 => by
      simp only [List.foldl_cons]
      rw [min_assoc, foldl_min_pull t]

theorem listMinInf_pos : ∀ (c : List RRow), (∀ r ∈ c, 0 < r.perCase) → ∀ b : ℚ,
    listMinInf (some b :: c.map maxCasesByItem) = some ((c.map ratioOf).foldl min b)
  | [], _, b => rfl
  | r :: t, hc, b => by
      have hr : 0 < r.perCase := hc r (List.mem_cons_self r t)
      have ht : ∀ x ∈ t, 0 < x.perCase := fun x hx => hc x (List.mem_cons_of_mem _ hx)
      rw [listMinInf_cons_some]
      simp only [List.map_cons, maxCasesByItem, hr, if_pos]
      rw [listMinInf_pos t ht (ratioOf r)]
      simp only [List.foldl_cons]
      rw [foldl_min_pull]

theorem foldl_pickStep_some : ∀ (l : List RRow) (b : RRow),
    ∃ c, l.foldl pickStep (some b) = some c ∧
      ratioOf c = (l.map ratioOf).foldl min (ratioOf b)
  | [], b => ⟨b, rfl, rfl⟩
  | r :: t, b => by
      simp only [List.foldl_cons, List.map_cons, pickStep]
      by_cases hlt : ratioOf r < ratioOf b ∨
          (ratioOf r = ratioOf b ∧ pyLt r.component b.component)
      · rw [if_pos hlt]
        obtain ⟨c, hcEq, hcRat⟩ := foldl_pickStep_some t r
        refine ⟨c, hcEq, ?_⟩
        have hle : ratioOf r ≤ ratioOf b := by
          rcases hlt with h | ⟨h, _⟩
          · exact le_of_lt h
          · exact le_of_eq h
        rw [hcRat, min_eq_right hle]
      · rw [if_neg hlt]
        obtain ⟨c, hcEq, hcRat⟩ := foldl_pickStep_some t b
        refine ⟨c, hcEq, ?_⟩
        have hle : ratioOf b ≤ ratioOf r :=
          le_of_not_lt fun hx => hlt (Or.inl hx)
        rw [hcRat, min_eq_left hle]

/-- Claim C5 (counterexample): the feasibility computation of the code
returns only an integer; two inputs with different spec-side constraining
materials produce the same feasibility value, so the code's feasibility
result does not carry the constraining material. -/
theorem C5_counterexample :
    max_sellable [⟨"a", "ea", 1, 5, 0, 5⟩] = max_sellable [⟨"b", "ea", 1, 5, 0, 5⟩] ∧
    (feasibilitySpec [⟨"a", "ea", 1, 5, 0, 5⟩]).2 ≠
      (feasibilitySpec [⟨"b", "ea", 1, 5, 0, 5⟩]).2 := by
  with_unfolding_all decide

/-- Claim C5 (amended): the code's feasibility computation returns only
`maxFulfillable`, and that integer agrees with the first component of the
spec's feasibility result — the floor of the minimum `onHand / perUnit`
over rows with `perUnit > 0`, and `0` when there is no such row; no
constraining material is returned. -/
theorem C5_max_fulfillable (rows : List RRow) :
    max_sellable rows = (feasibilitySpec rows).1 := by
  simp only [max_sellable, feasibilitySpec, specPick]
  cases hc : rows.filter fun r => decide (0 < r.perCase) with
  | nil => simp [hc]
  | cons x t =>
      have hall : ∀ r ∈ rows.filter (fun r => decide (0 < r.perCase)), 0 < r.perCase := by
        intro r hr
        exact of_decide_eq_true (List.mem_filter.mp hr).2
      have hx : 0 < x.perCase := hall x (hc ▸ List.mem_cons_self x t)
      have ht : ∀ r ∈ t, 0 < r.perCase :=
        fun r hr => hall r (hc ▸ List.mem_cons_of_mem _ hr)
      rw [listMinInf_map_filter rows, hc]
      simp only [List.isEmpty_cons, if_false, List.map_cons, maxCasesByItem, hx, if_pos,
        List.foldl_cons, Bool.false_eq_true]
      rw [listMinInf_pos t ht (ratioOf x)]
      have hstep : pickStep none x = some x := rfl
      rw [hstep]
      obtain ⟨c, hcEq, hcRat⟩ := foldl_pickStep_some t x
      rw [hcEq]
      simp only [hcRat]

/-- Claim C4: a material with `perUnit = 0` never constrains the
feasibility result — removing it changes nothing, whatever its `onHand` —
and when no material has `perUnit > 0` the result is `0`. -/
theorem C4_zero_perunit_excluded :
    (∀ (l₁ l₂ : List RRow) (r : RRow), r.perCase = 0 →
      max_sellable (l₁ ++ r :: l₂) = max_sellable (l₁ ++ l₂)) ∧
    (∀ rows : List RRow, (∀ x ∈ rows, ¬ 0 < x.perCase) → max_sellable rows = 0) := by
  constructor
  · intro l₁ l₂ r hr
    have hfilter : (l₁ ++ r :: l₂).filter (fun x => decide (0 < x.perCase)) =
        (l₁ ++ l₂).filter (fun x => decide (0 < x.perCase)) := by
      simp [List.filter_append, List.filter_cons, hr]
    simp only [max_sellable]
    rw [listMinInf_map_filter (l₁ ++ r :: l₂), listMinInf_map_filter (l₁ ++ l₂), hfilter]
  · intro rows hrows
    have hnil : rows.filter (fun x => decide (0 < x.perCase)) = [] := by
      rw [List.filter_eq_nil_iff]
      intro a ha
      simpa using hrows a ha
    simp only [max_sellable, hnil, List.isEmpty_nil, if_true]

/-- Claim C4 (witness): removing a `perUnit = 0` material with zero stock
leaves the result unchanged, and an all-zero-perUnit table yields `0`. -/
theorem C4_zero_perunit_excluded_witness :
    max_sellable ([⟨"a", "", 2, 4, 0, 0⟩] ++ ⟨"z", "", 0, 0, 0, 0⟩ :: [⟨"b", "", 1, 3, 0, 0⟩]) =
      max_sellable ([⟨"a", "", 2, 4, 0, 0⟩] ++ [⟨"b", "", 1, 3, 0, 0⟩]) ∧
    max_sellable [⟨"z", "", 0, 5, 0, 0⟩] = 0 :=
  ⟨C4_zero_perunit_excluded.1 [⟨"a", "", 2, 4, 0, 0⟩] [⟨"b", "", 1, 3, 0, 0⟩] _ rfl,
   C4_zero_perunit_excluded.2 _ (by decide)⟩

theorem mergeLeft_perm {f₁ f₂ : List FormulaRow} (h : f₁.Perm f₂) (s : List StockRow) :
    (mergeLeft f₁ s).Perm (mergeLeft f₂ s) := by
  induction h with
  | nil => exact List.Perm.refl _
  | cons x _ ih => exact ih.append_left _
  | swap x y l =>
      rw [mergeLeft, mergeLeft, mergeLeft, mergeLeft, ← List.append_assoc, ← List.append_assoc]
      exact List.perm_append_comm.append_right _
  | trans _ _ ih1 ih2 => exact ih1.trans ih2

theorem pipeline_rows_perm {f₁ f₂ : List FormulaRow} (h : f₁.Perm f₂)
    (so : Option (List StockRow)) (cases : ℚ) :
    (deriveMetrics cases (normRows (mergedRows f₁ so))).Perm
      (deriveMetrics cases (normRows (mergedRows f₂ so))) := by
  have hm : (mergedRows f₁ so).Perm (mergedRows f₂ so) := by
    cases so with
    | none => exact h.map _
    | some s => exact mergeLeft_perm h s
  exact (hm.map _).map _

/-- Claim C9 (counterexample): the display sort is case-sensitive — with
materials `"a"` and `"B"` the output is not sorted in the spec's
case-insensitive order — and with duplicate material identities the
output is not independent of the input order of the formula table. -/
theorem C9_counterexample :
    (¬ List.Sorted ciLe
      ((compute_results [⟨"a", some 1, "ea"⟩, ⟨"B", some 1, "ea"⟩] none 0).display)) ∧
    ([⟨"a", some 1, "u"⟩, ⟨"a", some 2, "v"⟩] : List FormulaRow).Perm
      [⟨"a", some 2, "v"⟩, ⟨"a", some 1, "u"⟩] ∧
    (compute_results [⟨"a", some 1, "u"⟩, ⟨"a", some 2, "v"⟩] none 0).display ≠
      (compute_results [⟨"a", some 2, "v"⟩, ⟨"a", some 1, "u"⟩] none 0).display := by
  refine ⟨by with_unfolding_all decide, List.Perm.swap _ _ _, by with_unfolding_all decide⟩

/-- Claim C9 (amended): the reconciled result rows are ordered by material
identity ascending in plain code-point (case-sensitive) string order, and
permuting the formula table permutes the display rows (the multiset of
output rows is input-order independent; only the relative order of rows
with equal material identity can follow the input order). -/
theorem C9_display_order :
    (∀ (f : List FormulaRow) (so : Option (List StockRow)) (cases : ℚ),
      List.Sorted rleC ((compute_results f so cases).display)) ∧
    (∀ (f₁ f₂ : List FormulaRow) (so : Option (List StockRow)) (cases : ℚ),
      f₁.Perm f₂ →
      ((compute_results f₁ so cases).display).Perm
        ((compute_results f₂ so cases).display)) := by
  constructor
  · intro f so cases
    exact List.sorted_insertionSort rleC _
  · intro f₁ f₂ so cases h
    have h1 := List.perm_insertionSort rleC (deriveMetrics cases (normRows (mergedRows f₁ so)))
    have h2 := List.perm_insertionSort rleC (deriveMetrics cases (normRows (mergedRows f₂ so)))
    exact h1.trans ((pipeline_rows_perm h so cases).trans h2.symm)

/-- Claim C9 (witness): the sortedness and permutation-invariance at a
concrete pair of permuted formula tables. -/
theorem C9_display_order_witness :
    List.Sorted rleC
      ((compute_results [⟨"b", some 1, "u"⟩, ⟨"a", some 2, "v"⟩] none 1).display) ∧
    ((compute_results [⟨"b", some 1, "u"⟩, ⟨"a", some 2, "v"⟩] none 1).display).Perm
      ((compute_results [⟨"a", some 2, "v"⟩, ⟨"b", some 1, "u"⟩] none 1).display) :=
  ⟨C9_display_order.1 _ none 1,
   C9_display_order.2 _ _ none 1 (List.Perm.swap _ _ _)⟩

theorem allocF_mem_lt {st : PState} {fr : Frame} {k : ℕ} (h : k < st.nextId) :
    (allocF st fr).1.mem k = st.mem k :=
  Function.update_noteq (Nat.ne_of_lt h) _ _

theorem writeF_mem_ne {st : PState} {i : ℕ} {fr : Frame} {k : ℕ} (h : k ≠ i) :
    (writeF st i fr).mem k = st.mem k :=
  Function.update_noteq h _ _

theorem computeTailSt_mem (st : PState) (d : ℕ) (f : List FormulaRow)
    (so : Option (List StockRow)) (cases : ℚ) {k : ℕ}
    (hk : k < st.nextId) (hkd : k ≠ d) :
    (computeTailSt st d f so cases).1.mem k = st.mem k := by
  simp only [computeTailSt, allocF, writeF]
  rw [Function.update_noteq (show k ≠ st.nextId + 1 from by omega),
    Function.update_noteq (show k ≠ st.nextId from by omega),
    Function.update_noteq hkd, Function.update_noteq hkd]

/-- Claim C10: `compute_results` never mutates its arguments — after a
call, the components frame and the stock frame (when one was passed) are
unchanged in the store, so repeated calls with the same inputs are safe. -/
theorem C10_no_mutation (st : PState) (ci : ℕ) (oi : Option ℕ) (cases : ℚ)
    (hci : ci < st.nextId) (hoi : ∀ j, oi = some j → j < st.nextId) :
    (finalState st ci oi cases).mem ci = st.mem ci ∧
    (∀ j, oi = some j → (finalState st ci oi cases).mem j = st.mem j) := by
  have main : ∀ k, k < st.nextId → (finalState st ci oi cases).mem k = st.mem k := by
    intro k hk
    simp only [finalState, computeResultsSt]
    cases hm : st.mem ci with
    | none => rfl
    | some fr =>
        cases fr with
        | formulaF f =>
            cases hro : readStock st oi with
            | none => rfl
            | some so =>
                cases so with
                | none =>
                    have h1 := computeTailSt_mem
                      (writeF (allocF st (Frame.formulaF f)).1 (allocF st (Frame.formulaF f)).2
                        (Frame.rawF (mergedRows f none)))
                      (allocF st (Frame.formulaF f)).2 f none cases
                      (Nat.lt_succ_of_lt hk) (Nat.ne_of_lt hk)
                    have h2 : (writeF (allocF st (Frame.formulaF f)).1
                          (allocF st (Frame.formulaF f)).2
                          (Frame.rawF (mergedRows f none))).mem k =
                        (allocF st (Frame.formulaF f)).1.mem k :=
                      writeF_mem_ne (Nat.ne_of_lt hk)
                    have h3 : (allocF st (Frame.formulaF f)).1.mem k = st.mem k :=
                      allocF_mem_lt hk
                    exact h1.trans (h2.trans h3)
                | some s =>
                    have h1 := computeTailSt_mem
                      (allocF (allocF st (Frame.formulaF f)).1
                        (Frame.rawF (mergedRows f (some s)))).1
                      (allocF (allocF st (Frame.formulaF f)).1
                        (Frame.rawF (mergedRows f (some s)))).2
                      f (some s) cases
                      (Nat.lt_succ_of_lt (Nat.lt_succ_of_lt hk))
                      (Nat.ne_of_lt (Nat.lt_succ_of_lt hk))
                    have h2 : (allocF (allocF st (Frame.formulaF f)).1
                          (Frame.rawF (mergedRows f (some s)))).1.mem k =
                        (allocF st (Frame.formulaF f)).1.mem k :=
                      allocF_mem_lt (Nat.lt_succ_of_lt hk)
                    have h3 : (allocF st (Frame.formulaF f)).1.mem k = st.mem k :=
                      allocF_mem_lt hk
                    exact h1.trans (h2.trans h3)
        | stockF s => rfl
        | rawF r2 => rfl
        | normF n2 => rfl
        | resultF rs => rfl
  exact ⟨main ci hci, fun j hj => main j (hoi j hj)⟩

/-- Claim C10 (witness): a concrete two-frame store where the formula
frame at id 0 is unchanged by the call. -/
theorem C10_no_mutation_witness :
    (finalState
        ⟨2, fun k =>
          if k = 0 then some (Frame.formulaF [⟨"a", some 1, "ea"⟩])
          else if k = 1 then some (Frame.stockF [⟨"a", some 3⟩]) else none⟩
        0 (some 1) 3).mem 0 =
      (⟨2, fun k =>
          if k = 0 then some (Frame.formulaF [⟨"a", some 1, "ea"⟩])
          else if k = 1 then some (Frame.stockF [⟨"a", some 3⟩]) else none⟩ :
        PState).mem 0 :=
  (C10_no_mutation _ 0 (some 1) 3 (by decide)
    (fun j hj => by cases hj; decide)).1

end Shotcraft
